import Mathlib

/-!
Verification development for the fiber/knowledge-base retrieval engine:
shallow embedding of the search, chunking, normalization, intent-detection
and document-indexing logic of `fiber_service.py`, `knowledge_base_service.py`
and the chat orchestration in `routes.py`, together with theorems settling
the specified properties.

Similarity scores are modelled with `ℚ`.  The SQL queries select
`1 - (embedding <=> query)` (cosine similarity) per row and order by the
cosine distance `embedding <=> query`; since similarity and distance are
related by `sim = 1 - dist`, ordering by distance ascending is ordering by
similarity descending, and rows in the model carry the selected similarity.
Text is modelled with `List Char` (the Python code is ASCII-oriented here;
`lower` is modelled as ASCII lowercasing).
-/

/-! ## Generic helpers shared by the vector-store models

The SQL queries in both services compute
`ROW_NUMBER() OVER (PARTITION BY item_id ORDER BY distance)` and keep
`rank = 1`.  We model this as: collect the distinct item ids (first-seen
order), and for each id keep the row of maximal similarity, i.e. minimal
distance (first maximum on ties, one admissible tie-break of
`ROW_NUMBER`). -/

/-- First-seen-order deduplication worker carrying the set of seen keys. -/
def dedupAux (seen : List Nat) : List Nat → List Nat
  | [] => []
  | x :: xs => if x ∈ seen then dedupAux seen xs else x :: dedupAux (x :: seen) xs

/-- Distinct keys of a list, first occurrence order. -/
def dedupKeys (l : List Nat) : List Nat := dedupAux [] l

theorem mem_of_mem_dedupAux {seen l : List Nat} {a : Nat}
    (h : a ∈ dedupAux seen l) : a ∈ l := by
  induction l generalizing seen with
  | nil => simp [dedupAux] at h
  | cons x xs ih =>
    simp only [dedupAux] at h
    split at h
    · exact List.mem_cons_of_mem _ (ih h)
    · rcases List.mem_cons.mp h with h1 | h1
      · exact h1 ▸ List.mem_cons_self _ _
      · exact List.mem_cons_of_mem _ (ih h1)

theorem not_mem_seen_of_mem_dedupAux {seen l : List Nat} {a : Nat}
    (h : a ∈ dedupAux seen l) : a ∉ seen := by
  induction l generalizing seen with
  | nil => simp [dedupAux] at h
  | cons x xs ih =>
    simp only [dedupAux] at h
    split at h
    · exact ih h
    · rcases List.mem_cons.mp h with h1 | h1
      · subst h1; assumption
      · intro hs
        exact ih h1 (List.mem_cons_of_mem _ hs)

theorem nodup_dedupAux (seen l : List Nat) : (dedupAux seen l).Nodup := by
  induction l generalizing seen with
  | nil => simp [dedupAux]
  | cons x xs ih =>
    simp only [dedupAux]
    split
    · exact ih seen
    · refine List.nodup_cons.mpr ⟨?_, ih (x :: seen)⟩
      intro hx
      exact not_mem_seen_of_mem_dedupAux hx (List.mem_cons_self _ _)

theorem mem_dedupAux_of_mem {seen l : List Nat} {a : Nat}
    (h : a ∈ l) (hs : a ∉ seen) : a ∈ dedupAux seen l := by
  induction l generalizing seen with
  | nil => simp at h
  | cons x xs ih =>
    simp only [dedupAux]
    rcases List.mem_cons.mp h with h1 | h1
    · subst h1
      split
      · rename_i hxs
        exact absurd hxs hs
      · exact List.mem_cons_self _ _
    · split
      · exact ih h1 hs
      · rename_i hxseen
        by_cases hax : a = x
        · exact hax ▸ List.mem_cons_self _ _
        · exact List.mem_cons_of_mem _ (ih h1 (by simp [hax, hs]))

theorem nodup_dedupKeys (l : List Nat) : (dedupKeys l).Nodup :=
  nodup_dedupAux [] l

theorem mem_dedupKeys {l : List Nat} {a : Nat} : a ∈ dedupKeys l ↔ a ∈ l :=
  ⟨mem_of_mem_dedupAux, fun h => mem_dedupAux_of_mem h (by simp)⟩

/-- Keep the row with the larger similarity, i.e. smaller distance (first
one on ties), as the running best of the `ORDER BY distance` rank-1 row. -/
def pickMaxBy {α : Type} (s : α → ℚ) (a b : α) : α := if s a < s b then b else a

/-- Maximal-similarity (minimal-distance) row of a list (`none` on empty). -/
def maxBy {α : Type} (s : α → ℚ) : List α → Option α
  | [] => none
  | h :: t => some (t.foldl (pickMaxBy s) h)

theorem foldl_pickMaxBy_mem {α : Type} (s : α → ℚ) (t : List α) (h : α) :
    t.foldl (pickMaxBy s) h ∈ h :: t := by
  induction t generalizing h with
  | nil => simp
  | cons x xs ih =>
    simp only [List.foldl_cons]
    have hm := ih (pickMaxBy s h x)
    have hpick : pickMaxBy s h x = h ∨ pickMaxBy s h x = x := by
      unfold pickMaxBy; split <;> simp
    rcases List.mem_cons.mp hm with h1 | h1
    · rw [h1]
      rcases hpick with h2 | h2
      · rw [h2]; exact List.mem_cons_self _ _
      · rw [h2]; exact List.mem_cons_of_mem _ (List.mem_cons_self _ _)
    · exact List.mem_cons_of_mem _ (List.mem_cons_of_mem _ h1)

theorem foldl_pickMaxBy_ge {α : Type} (s : α → ℚ) (t : List α) :
    ∀ (h : α), ∀ x ∈ h :: t, s x ≤ s (t.foldl (pickMaxBy s) h) := by
  induction t with
  | nil =>
    intro h x hx
    rw [List.mem_singleton] at hx
    subst hx
    simp
  | cons y ys ih =>
    intro h x hx
    have hle : s h ≤ s (pickMaxBy s h y) ∧ s y ≤ s (pickMaxBy s h y) := by
      unfold pickMaxBy
      split
      · exact ⟨le_of_lt (by assumption), le_refl _⟩
      · exact ⟨le_refl _, le_of_not_lt (by assumption)⟩
    simp only [List.foldl_cons]
    rcases List.mem_cons.mp hx with h1 | h1
    · rw [h1]
      exact le_trans hle.1 (ih (pickMaxBy s h y) _ (List.mem_cons_self _ _))
    · rcases List.mem_cons.mp h1 with h2 | h2
      · rw [h2]
        exact le_trans hle.2 (ih (pickMaxBy s h y) _ (List.mem_cons_self _ _))
      · exact ih (pickMaxBy s h y) x (List.mem_cons_of_mem _ h2)

theorem maxBy_mem {α : Type} {s : α → ℚ} {l : List α} {r : α}
    (h : maxBy s l = some r) : r ∈ l := by
  cases l with
  | nil => simp [maxBy] at h
  | cons x xs =>
    simp only [maxBy, Option.some.injEq] at h
    exact h ▸ foldl_pickMaxBy_mem s xs x

theorem maxBy_ge {α : Type} {s : α → ℚ} {l : List α} {r : α}
    (h : maxBy s l = some r) : ∀ x ∈ l, s x ≤ s r := by
  cases l with
  | nil => simp [maxBy] at h
  | cons x xs =>
    simp only [maxBy, Option.some.injEq] at h
    exact h ▸ foldl_pickMaxBy_ge s xs x

theorem maxBy_isSome {α : Type} {s : α → ℚ} {l : List α} (h : l ≠ []) :
    (maxBy s l).isSome := by
  cases l with
  | nil => exact absurd rfl h
  | cons x xs => simp [maxBy]

/-- `rank = 1` selection: one best (maximal-similarity) row per key. -/
def rankOne {α : Type} (key : α → Nat) (s : α → ℚ) (l : List α) : List α :=
  (dedupKeys (l.map key)).filterMap
    (fun k => maxBy s (l.filter (fun r => key r = k)))

theorem mem_rankOne {α : Type} {key : α → Nat} {s : α → ℚ} {l : List α} {r : α}
    (h : r ∈ rankOne key s l) :
    r ∈ l ∧ ∀ r2 ∈ l, key r2 = key r → s r2 ≤ s r := by
  rcases List.mem_filterMap.mp h with ⟨k, _, hmax⟩
  have hrf : r ∈ l.filter (fun r => key r = k) := maxBy_mem hmax
  have hrl : r ∈ l := List.mem_of_mem_filter hrf
  have hkey : key r = k := by
    have := List.of_mem_filter hrf
    simpa using this
  refine ⟨hrl, fun r2 hr2 hk2 => ?_⟩
  have hr2f : r2 ∈ l.filter (fun r => key r = k) := by
    refine List.mem_filter.mpr ⟨hr2, ?_⟩
    simp [hk2, hkey]
  exact maxBy_ge hmax r2 hr2f

theorem countP_filterMap_nodup {α : Type} (key : α → Nat)
    (f : Nat → Option α) (ids : List Nat)
    (hf : ∀ i r, f i = some r → key r = i) (hnd : ids.Nodup) (k : Nat) :
    (ids.filterMap f).countP (fun r => key r = k) ≤ 1 := by
  induction ids with
  | nil => simp
  | cons i rest ih =>
    have hnd2 := List.nodup_cons.mp hnd
    simp only [List.filterMap_cons]
    cases hfi : f i with
    | none => exact ih hnd2.2
    | some r =>
      rw [List.countP_cons]
      by_cases hk : key r = k
      · have hik : i = k := (hf i r hfi) ▸ hk
        have hzero : (rest.filterMap f).countP (fun r => key r = k) = 0 := by
          rw [List.countP_eq_zero]
          intro r2 hr2
          rcases List.mem_filterMap.mp hr2 with ⟨j, hj, hfj⟩
          have : key r2 = j := hf j r2 hfj
          simp only [this]
          have : j ≠ k := fun hjk => hnd2.1 (hik ▸ hjk ▸ hj)
          simpa using this
        simp [hzero, hk]
      · simp only [hk]
        simpa using ih hnd2.2

theorem rankOne_countP {α : Type} (key : α → Nat) (s : α → ℚ) (l : List α)
    (k : Nat) : (rankOne key s l).countP (fun r => key r = k) ≤ 1 := by
  refine countP_filterMap_nodup key _ _ ?_ (nodup_dedupKeys _) k
  intro i r hmax
  have hrf := maxBy_mem hmax
  have := List.of_mem_filter hrf
  simpa using this

/-! ## Executable sort (models `ORDER BY similarity DESC`)

`ORDER BY` leaves ties unspecified; insertion sort is one admissible order. -/

/-- Insert into a sorted list according to `le`. -/
def insertBy {α : Type} (le : α → α → Bool) (a : α) : List α → List α
  | [] => [a]
  | b :: t => if le a b then a :: b :: t else b :: insertBy le a t

/-- Insertion sort according to `le`. -/
def sortBy {α : Type} (le : α → α → Bool) : List α → List α
  | [] => []
  | a :: t => insertBy le a (sortBy le t)

theorem insertBy_perm {α : Type} (le : α → α → Bool) (a : α) (l : List α) :
    (insertBy le a l).Perm (a :: l) := by
  induction l with
  | nil => simp [insertBy]
  | cons b t ih =>
    simp only [insertBy]
    split
    · exact List.Perm.refl _
    · exact ((ih.cons b).trans (List.Perm.swap a b t))

theorem sortBy_perm {α : Type} (le : α → α → Bool) (l : List α) :
    (sortBy le l).Perm l := by
  induction l with
  | nil => simp [sortBy]
  | cons a t ih =>
    exact (insertBy_perm le a (sortBy le t)).trans (ih.cons a)

/-- The shared SQL pipeline of both `semantic_search` queries:
`WHERE` scope-and-threshold filter inside the CTE, `ROW_NUMBER` partition
by item with `ORDER BY` distance (= similarity descending), keep
`rank = 1`, order the kept rows by similarity descending, `LIMIT`. -/
def sqlNearest {α : Type} (key : α → Nat) (s : α → ℚ) (p : α → Bool)
    (l : List α) (lim : Nat) : List α :=
  (sortBy (fun a b => decide (s b ≤ s a)) (rankOne key s (l.filter p))).take lim

theorem sqlNearest_mem {α : Type} {key : α → Nat} {s : α → ℚ} {p : α → Bool}
    {l : List α} {lim : Nat} {r : α} (h : r ∈ sqlNearest key s p l lim) :
    r ∈ l.filter p ∧ ∀ r2 ∈ l.filter p, key r2 = key r → s r2 ≤ s r := by
  have h1 : r ∈ sortBy (fun a b => decide (s b ≤ s a)) (rankOne key s (l.filter p)) :=
    (List.take_sublist _ _).mem h
  have h2 : r ∈ rankOne key s (l.filter p) :=
    (sortBy_perm _ _).mem_iff.mp h1
  exact mem_rankOne h2

theorem sqlNearest_countP {α : Type} (key : α → Nat) (s : α → ℚ) (p : α → Bool)
    (l : List α) (lim : Nat) (k : Nat) :
    (sqlNearest key s p l lim).countP (fun r => key r = k) ≤ 1 := by
  have h1 : (sqlNearest key s p l lim).countP (fun r => key r = k) ≤
      (sortBy (fun a b => decide (s b ≤ s a)) (rankOne key s (l.filter p))).countP
        (fun r => key r = k) :=
    (List.take_sublist _ _).countP_le _
  have h2 := (sortBy_perm (fun a b => decide (s b ≤ s a))
      (rankOne key s (l.filter p))).countP_eq (fun r => key r = k)
  exact le_trans h1 (h2 ▸ rankOne_countP key s (l.filter p) k)

/-! ## Vector Store Accessor models

`FiberSearchService.semantic_search` (fiber_service.py, the pgvector query):
rows of `fiber_embeddings` joined with `fibers`; the CTE `WHERE` keeps
`f.is_active = true` and `1 - (fe.embedding <=> query) >= threshold`,
partitions by `fe.fiber_id`, keeps `rank = 1`, orders by similarity
descending, limits.  Each row carries the selected similarity
`1 - (fe.embedding <=> query)`. -/

structure FiberEmbRow where
  fiberId : Nat
  content_type : String
  content_text : String
  sim : ℚ
  is_active : Bool
deriving DecidableEq

namespace FiberSearchService

/-- The pgvector query of `FiberSearchService.semantic_search`. -/
def semantic_search_sql (rows : List FiberEmbRow) (threshold : ℚ)
    (limit : Nat) : List FiberEmbRow :=
  sqlNearest (fun r => r.fiberId) (fun r => r.sim)
    (fun r => r.is_active && decide (r.sim ≥ threshold)) rows limit

end FiberSearchService

/-- One row of `knowledge_base_embeddings` joined with its document
(`knowledge_base_documents`): document-level columns are copied onto the
row exactly as the SQL join does. -/
structure KbEmbRow where
  documentId : Nat
  chunk_text : String
  chunk_index : Nat
  sim : ℚ
  is_published : Bool
  category : Option String
  fiber_ids : List Nat
deriving DecidableEq

namespace KnowledgeBaseService

/-- The pgvector query of `KnowledgeBaseService.semantic_search`:
`WHERE` keeps the threshold plus (optionally) `d.is_published = true` and
`d.category = :category`; partition by `e.document_id`, `rank = 1`,
order by similarity descending, `LIMIT`.  The `fiber_ids` filter is NOT
part of the SQL. -/
def semantic_search_sql (rows : List KbEmbRow) (threshold : ℚ) (limit : Nat)
    (published_only : Bool) (category : Option String) : List KbEmbRow :=
  sqlNearest (fun r => r.documentId) (fun r => r.sim)
    (fun r => (!published_only || r.is_published) &&
      (match category with
       | none => true
       | some c => r.category == some c) &&
      decide (r.sim ≥ threshold)) rows limit

/-- `KnowledgeBaseService.semantic_search`: the SQL query above, followed by
the Python result loop which drops rows whose document relates to none of
the requested `fiber_ids` (`if fiber_ids: ... if not any(...): continue`).
An absent/empty `fiber_ids` argument disables the filter. -/
def semantic_search (rows : List KbEmbRow) (threshold : ℚ) (limit : Nat)
    (published_only : Bool) (category : Option String)
    (fiber_ids : List Nat) : List KbEmbRow :=
  let sqlRes := semantic_search_sql rows threshold limit published_only category
  if fiber_ids.isEmpty then sqlRes
  else sqlRes.filter (fun r => r.fiber_ids.any (fun fid => fiber_ids.contains fid))

end KnowledgeBaseService

/-! ## C1: the per-item rank invariant -/

/-- C1: For every call to vector similarity search (fiber or knowledge-base),
and for every item having multiple stored embeddings/chunks, at most one row
for that item appears in the returned list, and it is the embedding/chunk
with minimal cosine distance — equivalently maximal similarity, since
`sim = 1 - dist` — to the query among that item's rows that pass the
threshold.  The join well-formedness hypotheses say that the fiber/document
columns copied onto each row by the SQL join agree across rows of the same
item. -/
theorem C1_rank_invariant :
    (∀ (rows : List FiberEmbRow) (t : ℚ) (lim : Nat),
      (∀ r1 ∈ rows, ∀ r2 ∈ rows, r1.fiberId = r2.fiberId →
        r1.is_active = r2.is_active) →
      ∀ r ∈ FiberSearchService.semantic_search_sql rows t lim,
        (FiberSearchService.semantic_search_sql rows t lim).countP
            (fun x => x.fiberId = r.fiberId) ≤ 1 ∧
          r ∈ rows ∧ r.is_active = true ∧ r.sim ≥ t ∧
          ∀ r2 ∈ rows, r2.fiberId = r.fiberId → r2.sim ≥ t →
            r2.sim ≤ r.sim) ∧
    (∀ (rows : List KbEmbRow) (t : ℚ) (lim : Nat) (pub : Bool)
        (cat : Option String) (fids : List Nat),
      (∀ r1 ∈ rows, ∀ r2 ∈ rows, r1.documentId = r2.documentId →
        r1.is_published = r2.is_published ∧ r1.category = r2.category) →
      ∀ r ∈ KnowledgeBaseService.semantic_search rows t lim pub cat fids,
        (KnowledgeBaseService.semantic_search rows t lim pub cat fids).countP
            (fun x => x.documentId = r.documentId) ≤ 1 ∧
          r ∈ rows ∧ r.sim ≥ t ∧
          ∀ r2 ∈ rows, r2.documentId = r.documentId → r2.sim ≥ t →
            r2.sim ≤ r.sim) := by
  constructor
  · intro rows t lim hjoin r hr
    obtain ⟨hrf, hmax⟩ := sqlNearest_mem hr
    have hrl : r ∈ rows := List.mem_of_mem_filter hrf
    have hp := List.of_mem_filter hrf
    simp only [Bool.and_eq_true, decide_eq_true_eq] at hp
    refine ⟨sqlNearest_countP _ _ _ rows lim r.fiberId, hrl, hp.1, hp.2, ?_⟩
    intro r2 hr2 hid hth
    have hact2 : r2.is_active = r.is_active := hjoin r2 hr2 r hrl hid
    have hr2f : r2 ∈ rows.filter
        (fun x => x.is_active && decide (x.sim ≥ t)) := by
      refine List.mem_filter.mpr ⟨hr2, ?_⟩
      simp [hact2, hp.1, hth]
    exact hmax r2 hr2f hid
  · intro rows t lim pub cat fids hjoin r hr
    have hsql : r ∈ KnowledgeBaseService.semantic_search_sql rows t lim pub cat := by
      unfold KnowledgeBaseService.semantic_search at hr
      split at hr
      · exact hr
      · exact List.mem_of_mem_filter hr
    obtain ⟨hrf, hmax⟩ := sqlNearest_mem hsql
    have hrl : r ∈ rows := List.mem_of_mem_filter hrf
    have hp := List.of_mem_filter hrf
    simp only [Bool.and_eq_true, decide_eq_true_eq] at hp
    have hcount : (KnowledgeBaseService.semantic_search rows t lim pub cat fids).countP
        (fun x => x.documentId = r.documentId) ≤ 1 := by
      have hle : (KnowledgeBaseService.semantic_search rows t lim pub cat fids).countP
          (fun x => x.documentId = r.documentId) ≤
          (KnowledgeBaseService.semantic_search_sql rows t lim pub cat).countP
          (fun x => x.documentId = r.documentId) := by
        unfold KnowledgeBaseService.semantic_search
        split
        · exact le_refl _
        · exact (List.filter_sublist _).countP_le _
      exact le_trans hle (sqlNearest_countP _ _ _ rows lim r.documentId)
    refine ⟨hcount, hrl, hp.2, ?_⟩
    intro r2 hr2 hid hth
    have hdoc := hjoin r2 hr2 r hrl hid
    have hr2f : r2 ∈ rows.filter (fun x => (!pub || x.is_published) &&
        (match cat with
         | none => true
         | some c => x.category == some c) && decide (x.sim ≥ t)) := by
      refine List.mem_filter.mpr ⟨hr2, ?_⟩
      simp only [Bool.and_eq_true, decide_eq_true_eq]
      refine ⟨⟨?_, ?_⟩, hth⟩
      · rw [hdoc.1]
        exact hp.1.1
      · rw [hdoc.2]
        exact hp.1.2
    exact hmax r2 hr2f hid

/-- A fiber with two stored embeddings (content types) plus a second fiber. -/
def fr1 : FiberEmbRow := ⟨1, "name", "cotton", mkRat 8 10, true⟩

def fr2 : FiberEmbRow := ⟨1, "complete", "cotton full record", mkRat 9 10, true⟩

def fr3 : FiberEmbRow := ⟨2, "name", "jute", mkRat 7 10, true⟩

/-- A document with two chunks plus a second document. -/
def kr1 : KbEmbRow := ⟨1, "chunk a", 0, mkRat 8 10, true, none, []⟩

def kr2 : KbEmbRow := ⟨1, "chunk b", 1, mkRat 9 10, true, none, []⟩

def kr3 : KbEmbRow := ⟨2, "chunk c", 0, mkRat 7 10, true, none, []⟩

/-- Witness for C1 at concrete inputs: both searches, a fiber and a document
each having two stored rows. -/
theorem C1_rank_invariant_witness :
    ((FiberSearchService.semantic_search_sql [fr1, fr2, fr3] (mkRat 45 100) 15).countP
        (fun x => x.fiberId = fr2.fiberId) ≤ 1 ∧
      fr2 ∈ [fr1, fr2, fr3] ∧ fr2.is_active = true ∧
      fr2.sim ≥ mkRat 45 100 ∧
      ∀ r2 ∈ [fr1, fr2, fr3], r2.fiberId = fr2.fiberId →
        r2.sim ≥ mkRat 45 100 → r2.sim ≤ fr2.sim) ∧
    ((KnowledgeBaseService.semantic_search [kr1, kr2, kr3] (mkRat 6 10) 5 true none []).countP
        (fun x => x.documentId = kr2.documentId) ≤ 1 ∧
      kr2 ∈ [kr1, kr2, kr3] ∧ kr2.sim ≥ mkRat 6 10 ∧
      ∀ r2 ∈ [kr1, kr2, kr3], r2.documentId = kr2.documentId →
        r2.sim ≥ mkRat 6 10 → r2.sim ≤ kr2.sim) :=
  ⟨C1_rank_invariant.1 [fr1, fr2, fr3] (mkRat 45 100) 15 (by decide) fr2 (by decide),
   C1_rank_invariant.2 [kr1, kr2, kr3] (mkRat 6 10) 5 true none [] (by decide) kr2
     (by decide)⟩

/-! ## C5: placement of the scope filters -/

namespace KnowledgeBaseService

/-- Spec-side comparison definition, following the spec's words for the
knowledge-base search: ALL caller-supplied scope filters — published-only,
category equality, and fiber-id membership — applied before the per-item
partition/rank step. -/
def semantic_search_spec (rows : List KbEmbRow) (threshold : ℚ) (limit : Nat)
    (published_only : Bool) (category : Option String)
    (fiber_ids : List Nat) : List KbEmbRow :=
  sqlNearest (fun r => r.documentId) (fun r => r.sim)
    (fun r => (!published_only || r.is_published) &&
      (match category with
       | none => true
       | some c => r.category == some c) &&
      (fiber_ids.isEmpty || r.fiber_ids.any (fun fid => fiber_ids.contains fid)) &&
      decide (r.sim ≥ threshold)) rows limit

end KnowledgeBaseService

/-- Document 1 (best similarity) is unrelated to fiber 5; document 2 is
related to fiber 5. -/
def c5rowA : KbEmbRow := ⟨1, "doc one chunk", 0, mkRat 9 10, true, none, []⟩

def c5rowB : KbEmbRow := ⟨2, "doc two chunk", 0, mkRat 8 10, true, none, [5]⟩

/-- C5 counterexample: with a fiber-id membership filter, limit 1 and an
in-scope related document available, the code returns an empty list — the
fiber-id filter runs after ranking and limiting, so it reduces the result
count below the limit, unlike the filter-before-rank behaviour the claim
states (shown by the spec-side definition returning the related document). -/
theorem C5_counterexample :
    KnowledgeBaseService.semantic_search [c5rowA, c5rowB] (mkRat 1 2) 1
        true none [5] = [] ∧
    KnowledgeBaseService.semantic_search_spec [c5rowA, c5rowB] (mkRat 1 2) 1
        true none [5] = [c5rowB] := by
  constructor
  · decide
  · decide

theorem filterMap_length_of_isSome {α β : Type} (f : α → Option β)
    (l : List α) (h : ∀ i ∈ l, (f i).isSome) :
    (l.filterMap f).length = l.length := by
  induction l with
  | nil => simp
  | cons x xs ih =>
    simp only [List.filterMap_cons]
    cases hfx : f x with
    | none =>
      have := h x (List.mem_cons_self _ _)
      rw [hfx] at this
      simp at this
    | some b =>
      simp only [List.length_cons]
      rw [ih (fun i hi => h i (List.mem_cons_of_mem _ hi))]

theorem rankOne_length {α : Type} (key : α → Nat) (s : α → ℚ) (l : List α) :
    (rankOne key s l).length = (dedupKeys (l.map key)).length := by
  unfold rankOne
  refine filterMap_length_of_isSome _ _ ?_
  intro k hk
  have hk2 : k ∈ l.map key := mem_dedupKeys.mp hk
  rcases List.mem_map.mp hk2 with ⟨r, hr, hkey⟩
  have hne : l.filter (fun x => key x = k) ≠ [] := by
    intro hnil
    have : r ∈ l.filter (fun x => key x = k) :=
      List.mem_filter.mpr ⟨hr, by simp [hkey]⟩
    rw [hnil] at this
    simp at this
  exact maxBy_isSome hne

theorem sqlNearest_length {α : Type} (key : α → Nat) (s : α → ℚ)
    (p : α → Bool) (l : List α) (lim : Nat) :
    (sqlNearest key s p l lim).length =
      min lim (dedupKeys ((l.filter p).map key)).length := by
  unfold sqlNearest
  rw [List.length_take, (sortBy_perm _ _).length_eq, rankOne_length]

/-- C5 (amended): for the fiber search, the only scope filter (active-only)
together with the threshold is applied before the partition/rank step — the
query equals rank-after-prefilter, and the result count is exactly
`min limit (number of distinct in-scope fibers)`, never less.  For the
knowledge-base search, published-only and category are likewise applied
before ranking, but the fiber-id membership filter is applied afterwards,
as a Python post-filter on the ranked-and-limited rows (which can reduce
the count below the limit, as the counterexample shows). -/
theorem C5_amended :
    (∀ (rows : List FiberEmbRow) (t : ℚ) (lim : Nat),
      FiberSearchService.semantic_search_sql rows t lim =
        sqlNearest (fun r => r.fiberId) (fun r => r.sim) (fun _ => true)
          (rows.filter (fun r => r.is_active && decide (r.sim ≥ t))) lim ∧
      (FiberSearchService.semantic_search_sql rows t lim).length =
        min lim (dedupKeys ((rows.filter
          (fun r => r.is_active && decide (r.sim ≥ t))).map
            (fun r => r.fiberId))).length) ∧
    (∀ (rows : List KbEmbRow) (t : ℚ) (lim : Nat) (pub : Bool)
        (cat : Option String) (fids : List Nat),
      (KnowledgeBaseService.semantic_search_sql rows t lim pub cat =
        sqlNearest (fun r => r.documentId) (fun r => r.sim) (fun _ => true)
          (rows.filter (fun r => (!pub || r.is_published) &&
            (match cat with
             | none => true
             | some c => r.category == some c) &&
            decide (r.sim ≥ t))) lim) ∧
      (fids ≠ [] →
        KnowledgeBaseService.semantic_search rows t lim pub cat fids =
          (KnowledgeBaseService.semantic_search_sql rows t lim pub cat).filter
            (fun r => r.fiber_ids.any (fun fid => fids.contains fid)))) := by
  constructor
  · intro rows t lim
    constructor
    · unfold FiberSearchService.semantic_search_sql sqlNearest
      rw [List.filter_true]
    · unfold FiberSearchService.semantic_search_sql
      exact sqlNearest_length _ _ _ _ _
  · intro rows t lim pub cat fids
    constructor
    · unfold KnowledgeBaseService.semantic_search_sql sqlNearest
      rw [List.filter_true]
    · intro hfids
      unfold KnowledgeBaseService.semantic_search
      cases fids with
      | nil => exact absurd rfl hfids
      | cons a l => simp

/-- Witness for the amended C5 at concrete inputs (discharging the
`fids ≠ []` hypothesis). -/
theorem C5_amended_witness :
    KnowledgeBaseService.semantic_search [c5rowA, c5rowB] (mkRat 1 2) 1
        true none [5] =
      (KnowledgeBaseService.semantic_search_sql [c5rowA, c5rowB] (mkRat 1 2) 1
        true none).filter
          (fun r => r.fiber_ids.any (fun fid => List.contains [5] fid)) :=
  ((C5_amended.2 [c5rowA, c5rowB] (mkRat 1 2) 1 true none [5]).2 (by decide))

/-! ## Text helpers for the rule-based components

Queries are lowercased with Python `str.lower()`; the vocabulary here is
ASCII, modelled by `Char.toLower`.  Python `a in b` is substring
containment. -/

/-- ASCII lowercasing of a query (`query.lower()`). -/
def lowerStr (s : List Char) : List Char := s.map Char.toLower

/-- Python substring containment `pat in s`. -/
def strContains (s pat : List Char) : Bool :=
  s.tails.any (fun t => pat.isPrefixOf t)

/-- `any(word in query_lower for word in words)`. -/
def kwAny (q : List Char) (ws : List (List Char)) : Bool :=
  ws.any (fun w => strContains q w)

/-! ## Intent Detector (`FiberSearchService.detect_query_intent`) -/

/-- The fixed vocabulary of recognized fiber names. -/
def common_fibers : List (List Char) :=
  ["cotton", "polyester", "nylon", "wool", "silk", "rayon", "acrylic",
   "linen", "hemp", "bamboo", "viscose", "spandex", "lycra", "modal",
   "tencel", "kevlar", "nomex", "teflon", "polypropylene", "jute",
   "aramid", "carbon", "glass", "elastane", "acetate", "lyocell"].map
    String.toList

def property_words : List (List Char) :=
  ["property", "properties", "characteristic", "specifications"].map
    String.toList

def manufacturing_words : List (List Char) :=
  ["spinning", "manufacturing", "production", "process", "made", "produce",
   "treatment", "dyeing", "dye"].map String.toList

def application_words : List (List Char) :=
  ["use", "used for", "application", "suitable for", "best for", "find",
   "where"].map String.toList

def comparison_words : List (List Char) :=
  ["compare", "difference between", "vs", "versus", "better than"].map
    String.toList

def identification_words : List (List Char) :=
  ["identify", "what is", "what are", "define", "explain",
   "tell me about"].map String.toList

def category_words : List (List Char) :=
  ["natural", "synthetic", "cellulosic", "protein", "mineral", "fiber",
   "fibers"].map String.toList

def structure_image_words : List (List Char) :=
  ["structure", "image", "diagram", "picture", "visual",
   "molecular structure", "chemical structure", "show me"].map String.toList

/-- Result record of `detect_query_intent` (`intent["type"]` etc.;
`fiber_name` is the extracted entity, absent fields of the Python dict are
modelled by their falsy defaults). -/
structure QueryIntent where
  type : String
  fiber_name : Option (List Char)
  requires_search : Bool
  needs_images : Bool
  search_terms : List (List Char)
deriving DecidableEq

/-- `FiberSearchService.detect_query_intent`: sequential rule evaluation;
each matching keyword set overwrites `type` (fall-through, no early
return), any hit sets `requires_search`; the first recognized fiber name
(if any) becomes the entity and the sole search term, else the raw query
is the search term. -/
def detect_query_intent (query : List Char) : QueryIntent :=
  let query_lower := lowerStr query
  let fiberName := common_fibers.find? (fun f => strContains query_lower f)
  let m1 := kwAny query_lower property_words
  let m2 := kwAny query_lower manufacturing_words
  let m3 := kwAny query_lower application_words
  let m4 := kwAny query_lower comparison_words
  let m5 := kwAny query_lower identification_words
  let m6 := kwAny query_lower category_words
  let m7 := kwAny query_lower structure_image_words
  { type :=
      if m7 then "structure_image_request"
      else if m6 then "category_inquiry"
      else if m5 then "identification"
      else if m4 then "comparison"
      else if m3 then "application_inquiry"
      else if m2 then "manufacturing_inquiry"
      else if m1 then "property_inquiry"
      else "general"
    fiber_name := fiberName
    requires_search :=
      fiberName.isSome || m1 || m2 || m3 || m4 || m5 || m6 || m7
    needs_images := m7
    search_terms :=
      match fiberName with
      | some f => [f]
      | none => [query] }

/-- The spec-side description of the classification: the LAST keyword set
that matches in the fixed evaluation order property, manufacturing,
application, comparison, identification, category, structure-image wins;
`"general"` when none match. -/
def last_match_type (query : List Char) : String :=
  let ql := lowerStr query
  if kwAny ql structure_image_words then "structure_image_request"
  else if kwAny ql category_words then "category_inquiry"
  else if kwAny ql identification_words then "identification"
  else if kwAny ql comparison_words then "comparison"
  else if kwAny ql application_words then "application_inquiry"
  else if kwAny ql manufacturing_words then "manufacturing_inquiry"
  else if kwAny ql property_words then "property_inquiry"
  else "general"

/-- C7: for every query, the intent detector's kind equals the last keyword
set that matches in the fixed evaluation order (property, manufacturing,
application, comparison, identification, category, structure-image),
defaulting to `"general"`; in particular a query matching both the
comparison words and the structure/image words is classified
`structure_image_request`, not `comparison`. -/
theorem C7_last_match_wins :
    (∀ query : List Char,
      (detect_query_intent query).type = last_match_type query) ∧
    (kwAny (lowerStr ("compare the molecular structure of cotton".toList))
        comparison_words = true ∧
      kwAny (lowerStr ("compare the molecular structure of cotton".toList))
        structure_image_words = true ∧
      (detect_query_intent
        ("compare the molecular structure of cotton".toList)).type =
        "structure_image_request") := by
  refine ⟨fun query => rfl, ?_, ?_, ?_⟩
  · decide
  · decide
  · decide

/-! ## Chat orchestration slice (`chat_with_bot`, routes.py)

The orchestration step that builds `search_results`: abstracting the
database, `categoryFibers` is what `search_fibers_by_category` would
return for this query (fiber ids), `semanticResults` what
`semantic_search` returns (fiber id, similarity), `keywordResults` what
`keyword_search` returns (fiber ids). -/

/-- The listing-query signal of `chat_with_bot`
(`any(word in query_lower for word in [...])`). -/
def is_listing_query (message : List Char) : Bool :=
  kwAny (lowerStr message)
    (["all", "list", "example", "examples", "what are", "show",
      "which"].map String.toList)

/-- The keyword-merge loop of `chat_with_bot`: walk the keyword results,
appending each fiber whose id is not yet present, with fixed similarity
0.75 (`mkRat 3 4`), maintaining the seen-id set. -/
def mergeKeywordResults (base : List (Nat × ℚ)) (kw : List Nat) :
    List (Nat × ℚ) :=
  kw.foldl
    (fun acc fid =>
      if (acc.map Prod.fst).contains fid then acc
      else acc ++ [(fid, mkRat 3 4)])
    base

/-- The candidate-list construction of `chat_with_bot` (routes.py): nothing
when the intent does not require search; else the category path for
listing queries (similarity fixed at 1.0) and otherwise semantic search
followed, when fewer than 8 results and no category hit, by the keyword
merge. -/
def chat_search_results (message : List Char) (categoryFibers : List Nat)
    (semanticResults : List (Nat × ℚ)) (keywordResults : List Nat) :
    List (Nat × ℚ) :=
  if (detect_query_intent message).requires_search then
    let category_result :=
      if is_listing_query message then categoryFibers else []
    let catHit := !category_result.isEmpty
    let base :=
      if catHit then category_result.map (fun fid => (fid, (1 : ℚ)))
      else semanticResults
    if !catHit && decide (base.length < 8) then
      mergeKeywordResults base keywordResults
    else base
  else []

theorem mergeKeywordResults_eq (base : List (Nat × ℚ)) (kw : List Nat)
    (hkw : kw.Nodup) :
    mergeKeywordResults base kw =
      base ++ (kw.filter
        (fun fid => !(base.map Prod.fst).contains fid)).map
          (fun fid => (fid, mkRat 3 4)) := by
  induction kw generalizing base with
  | nil => simp [mergeKeywordResults]
  | cons f rest ih =>
    have hnd := List.nodup_cons.mp hkw
    have hstep : mergeKeywordResults base (f :: rest) =
        mergeKeywordResults
          (if (base.map Prod.fst).contains f then base
           else base ++ [(f, mkRat 3 4)]) rest := by
      simp only [mergeKeywordResults, List.foldl_cons]
    rw [hstep]
    by_cases hf : (base.map Prod.fst).contains f
    · have hfm : f ∈ base.map Prod.fst := by simpa using hf
      rw [if_pos hf, ih base hnd.2]
      have : rest.filter (fun fid => !(base.map Prod.fst).contains fid) =
          (f :: rest).filter (fun fid => !(base.map Prod.fst).contains fid) := by
        simp [List.filter_cons, hfm]
      rw [this]
    · have hfm : f ∉ base.map Prod.fst := by simpa using hf
      rw [if_neg hf, ih (base ++ [(f, mkRat 3 4)]) hnd.2]
      have hids : (base ++ [(f, mkRat 3 4)]).map Prod.fst =
          base.map Prod.fst ++ [f] := by simp
      have hfilter : rest.filter
          (fun fid => !((base ++ [(f, mkRat 3 4)]).map Prod.fst).contains fid) =
          rest.filter (fun fid => !(base.map Prod.fst).contains fid) := by
        refine List.filter_congr ?_
        intro fid hfid
        have hne : fid ≠ f := by
          intro hEq
          exact hnd.1 (hEq ▸ hfid)
        rw [hids]
        simp [List.mem_append, hne]
      rw [hfilter]
      have hcons : (f :: rest).filter
          (fun fid => !(base.map Prod.fst).contains fid) =
          f :: rest.filter (fun fid => !(base.map Prod.fst).contains fid) := by
        simp [List.filter_cons, hfm]
      rw [hcons, List.map_cons, List.append_assoc, List.singleton_append]

/-- C2: whenever the query was not resolved by the category path and
semantic search returned fewer than 8 results, the supplementary keyword
search merge runs, and the final candidate list equals the semantic
results followed by exactly those keyword results whose fiber id is not
already present, each with fixed similarity 0.75; the final list contains
no duplicate fiber ids.  (The semantic result ids and the keyword result
ids are duplicate-free, as rows of the respective queries.) -/
theorem C2_fallback_merge :
    ∀ (message : List Char) (categoryFibers : List Nat)
      (semanticResults : List (Nat × ℚ)) (keywordResults : List Nat),
      (detect_query_intent message).requires_search = true →
      (is_listing_query message = false ∨ categoryFibers = []) →
      semanticResults.length < 8 →
      (semanticResults.map Prod.fst).Nodup →
      keywordResults.Nodup →
      chat_search_results message categoryFibers semanticResults
          keywordResults =
        semanticResults ++
          (keywordResults.filter
            (fun fid => !(semanticResults.map Prod.fst).contains fid)).map
            (fun fid => (fid, mkRat 3 4)) ∧
      ((chat_search_results message categoryFibers semanticResults
          keywordResults).map Prod.fst).Nodup := by
  intro message categoryFibers semanticResults keywordResults hreq hcat hlen
    hnds hndk
  have hcatres : (if is_listing_query message then categoryFibers else []) =
      ([] : List Nat) := by
    rcases hcat with h | h
    · simp [h]
    · simp [h]
  have heq : chat_search_results message categoryFibers semanticResults
      keywordResults = mergeKeywordResults semanticResults keywordResults := by
    unfold chat_search_results
    rw [hreq]
    simp only [if_true, hcatres, List.isEmpty_nil, Bool.not_true,
      Bool.false_eq_true, if_false, Bool.not_false, Bool.true_and, hlen,
      decide_eq_true_eq]
  have hmain := mergeKeywordResults_eq semanticResults keywordResults hndk
  rw [heq, hmain]
  refine ⟨rfl, ?_⟩
  have hids : ((semanticResults ++
      (keywordResults.filter
        (fun fid => !(semanticResults.map Prod.fst).contains fid)).map
        (fun fid => (fid, mkRat 3 4))).map Prod.fst) =
      semanticResults.map Prod.fst ++
        keywordResults.filter
          (fun fid => !(semanticResults.map Prod.fst).contains fid) := by
    rw [List.map_append, List.map_map]
    have hcomp : (Prod.fst ∘ fun fid : Nat => (fid, mkRat 3 4)) = id := rfl
    rw [hcomp, List.map_id]
  rw [hids]
  rw [List.nodup_append]
  refine ⟨hnds, (List.filter_sublist _).nodup hndk, ?_⟩
  intro a ha hafilter
  have hcon := List.of_mem_filter hafilter
  clear hafilter
  revert ha hcon
  generalize (List.map Prod.fst semanticResults) = L
  intro ha hcon
  simp at hcon
  exact hcon ha

/-- Witness for C2: a manufacturing query (requires search, no listing
signal), 2 semantic hits, keyword results overlapping in fiber 2 and
adding fiber 3. -/
theorem C2_fallback_merge_witness :
    chat_search_results ("melt spinning process".toList) [5]
        [(1, mkRat 9 10), (2, mkRat 1 2)] [2, 3] =
      [(1, mkRat 9 10), (2, mkRat 1 2)] ++
        (([2, 3].filter
          (fun fid =>
            !(([(1, mkRat 9 10), (2, mkRat 1 2)].map Prod.fst).contains
              fid))).map (fun fid => (fid, mkRat 3 4))) ∧
      ((chat_search_results ("melt spinning process".toList) [5]
        [(1, mkRat 9 10), (2, mkRat 1 2)] [2, 3]).map Prod.fst).Nodup :=
  C2_fallback_merge ("melt spinning process".toList) [5]
    [(1, mkRat 9 10), (2, mkRat 1 2)] [2, 3] (by decide)
    (Or.inl (by decide)) (by decide) (by decide) (by decide)

/-- C3 counterexample: the query `"list all seed"` carries a
listing-signal word and (with a store holding seed-subtype fibers) the
category resolver would return a non-empty fiber set — but
`detect_query_intent` marks it as not requiring search (no fiber name and
no intent keyword matches), so `chat_with_bot` never reaches the category
path and produces no candidates at all instead of the category fibers at
similarity 1.0. -/
theorem C3_counterexample :
    is_listing_query ("list all seed".toList) = true ∧
    (detect_query_intent ("list all seed".toList)).requires_search = false ∧
    chat_search_results ("list all seed".toList) [7] [] [] = [] ∧
    chat_search_results ("list all seed".toList) [7] [] [] ≠
      [7].map (fun fid => (fid, (1 : ℚ)))  := by
  refine ⟨by decide, by decide, by decide, by decide⟩

/-- C3 (amended): provided the intent detector marked the query as
requiring search, if the raw query contains a listing-signal word and the
category resolver returns a non-empty fiber set, the final candidate set
is exactly those category fibers with similarity fixed at 1.0 — for every
possible semantic and keyword result, so neither search influences the
outcome (they are not consulted on this path). -/
theorem C3_amended :
    ∀ (message : List Char) (categoryFibers : List Nat)
      (semanticResults : List (Nat × ℚ)) (keywordResults : List Nat),
      (detect_query_intent message).requires_search = true →
      is_listing_query message = true →
      categoryFibers ≠ [] →
      chat_search_results message categoryFibers semanticResults
          keywordResults =
        categoryFibers.map (fun fid => (fid, (1 : ℚ))) := by
  intro message categoryFibers semanticResults keywordResults hreq hlist hne
  unfold chat_search_results
  rw [hreq, hlist]
  cases categoryFibers with
  | nil => exact absurd rfl hne
  | cons a l => simp

/-- Witness for C3 (amended): a listing query over a category with two
matching fibers; the semantic and keyword inputs are non-empty yet do not
appear in the result. -/
theorem C3_amended_witness :
    chat_search_results ("show all natural fibers".toList) [1, 2]
        [(3, mkRat 9 10)] [4] =
      [1, 2].map (fun fid => (fid, (1 : ℚ))) :=
  C3_amended ("show all natural fibers".toList) [1, 2] [(3, mkRat 9 10)] [4]
    (by decide) (by decide) (by decide)

/-! ## Chunker (`KnowledgeBaseService.chunk_document`)

Modelled over `List Char`.  Python `str.strip()` strips the whitespace
characters space, tab, newline, carriage return, vertical tab and form
feed; the sentence regex `(?<=[.!?])\s+` splits after `.`/`!`/`?`
followed by a whitespace run, consuming the run. -/

/-- Python whitespace (`str.strip`, regex `\s`, ASCII range). -/
def isPySpace (c : Char) : Bool :=
  c == ' ' || c == '\t' || c == '\n' || c == '\r' ||
    c == Char.ofNat 11 || c == Char.ofNat 12

/-- Python `str.strip()`. -/
def pyStrip (l : List Char) : List Char :=
  ((l.dropWhile isPySpace).reverse.dropWhile isPySpace).reverse

/-- Python `content.split('\n\n')` (greedy left-to-right, adjacent
separators give empty pieces). -/
def splitParagraphs : List Char → List (List Char)
  | [] => [[]]
  | '\n' :: '\n' :: rest => [] :: splitParagraphs rest
  | c :: rest =>
    match splitParagraphs rest with
    | [] => [[c]]
    | h :: t => (c :: h) :: t

/-- Is the head of the list a whitespace character? -/
def headSpace : List Char → Bool
  | [] => false
  | c :: _ => isPySpace c

/-- Worker for the sentence split `re.split(r'(?<=[.!?])\s+', paragraph)`:
`skipping` is true while consuming the whitespace run after a
sentence-ending punctuation mark. -/
def splitSentsGo (skipping : Bool) : List Char → List (List Char)
  | [] => [[]]
  | c :: rest =>
    if skipping && isPySpace c then splitSentsGo true rest
    else if (c == '.' || c == '!' || c == '?') && headSpace rest then
      [c] :: splitSentsGo true rest
    else
      match splitSentsGo false rest with
      | [] => [[c]]
      | h :: t => (c :: h) :: t

/-- `re.split(r'(?<=[.!?])\s+', paragraph)`. -/
def splitSentences (l : List Char) : List (List Char) := splitSentsGo false l

namespace KnowledgeBaseService

/-- `self.chunk_size` (characters per chunk). -/
def chunk_size : Nat := 800

/-- `self.chunk_overlap` (characters carried between chunks). -/
def chunk_overlap : Nat := 200

/-- `current_chunk[-chunk_overlap:]` when longer than the overlap, else the
whole buffer. -/
def overlapOf (current : List Char) : List Char :=
  if current.length > chunk_overlap then
    current.drop (current.length - chunk_overlap)
  else current

/-- Accumulated chunks plus the running buffer `current_chunk`. -/
structure ChunkState where
  chunks : List (List Char)
  current : List Char
deriving DecidableEq

/-- Body of the inner `for sentence in sentences` loop. -/
def stepSentence (st : ChunkState) (sentence : List Char) : ChunkState :=
  if st.current.length + sentence.length + 1 > chunk_size then
    if st.current.isEmpty then
      { chunks := st.chunks ++ [sentence], current := [] }
    else
      { chunks := st.chunks ++ [pyStrip st.current],
        current := overlapOf st.current ++ ' ' :: sentence }
  else
    { st with current :=
        if st.current.isEmpty then sentence
        else st.current ++ ' ' :: sentence }

/-- Body of the outer `for paragraph in paragraphs` loop (the stripped
paragraph is written out instead of Python's local rebinding
`paragraph = paragraph.strip()`). -/
def stepParagraph (st : ChunkState) (para : List Char) : ChunkState :=
  if (pyStrip para).isEmpty then st
  else if st.current.length + (pyStrip para).length + 2 > chunk_size then
    if st.current.isEmpty then
      (splitSentences (pyStrip para)).foldl stepSentence st
    else
      { chunks := st.chunks ++ [pyStrip st.current],
        current := overlapOf st.current ++ '\n' :: '\n' :: pyStrip para }
  else
    { st with current :=
        if st.current.isEmpty then pyStrip para
        else st.current ++ '\n' :: '\n' :: pyStrip para }

/-- The loop-final state of `chunk_document`. -/
def chunkFinalState (content : List Char) : ChunkState :=
  (splitParagraphs content).foldl stepParagraph ⟨[], []⟩

/-- `KnowledgeBaseService.chunk_document`. -/
def chunk_document (content : List Char) : List (List Char) :=
  if content.isEmpty then []
  else if (chunkFinalState content).current.isEmpty then
    (chunkFinalState content).chunks
  else
    (chunkFinalState content).chunks ++ [pyStrip (chunkFinalState content).current]

end KnowledgeBaseService

/-- A short first paragraph followed by a 1019-character multi-sentence
paragraph. -/
def c4para : List Char := (List.replicate 170 ("abcd. ".toList)).flatten

def c4content : List Char :=
  ("aaaaaaaaaa".toList) ++ '\n' :: '\n' :: c4para

set_option maxRecDepth 40000 in
/-- C4 counterexample: the second paragraph (1019 characters, 170 short
sentences) arrives while the buffer holds the first paragraph, so the
`current_chunk` branch carries it whole: the second chunk is 1031
characters — beyond the target size plus the overlap margin — is not a
single sentence, and contains the oversized paragraph unsplit. -/
theorem C4_counterexample :
    (KnowledgeBaseService.chunk_document c4content).map List.length =
        [10, 1031] ∧
      1031 > KnowledgeBaseService.chunk_size +
        KnowledgeBaseService.chunk_overlap + 2 ∧
      (splitSentences
        ((KnowledgeBaseService.chunk_document c4content).getD 1 [])).length =
        170 ∧
      (KnowledgeBaseService.chunk_document c4content).getD 1 [] =
        ("aaaaaaaaaa".toList) ++ '\n' :: '\n' :: pyStrip c4para := by
  refine ⟨by decide, by decide, by decide, by decide⟩

theorem length_dropWhile_le (p : Char → Bool) (l : List Char) :
    (l.dropWhile p).length ≤ l.length := by
  induction l with
  | nil => simp
  | cons c rest ih =>
    simp only [List.dropWhile_cons]
    split
    · exact le_trans ih (Nat.le_succ _)
    · exact le_refl _

theorem length_pyStrip_le (l : List Char) : (pyStrip l).length ≤ l.length := by
  unfold pyStrip
  rw [List.length_reverse]
  refine le_trans (length_dropWhile_le _ _) ?_
  rw [List.length_reverse]
  exact length_dropWhile_le _ _

theorem splitSentsGo_length_le (l : List Char) :
    ∀ (b : Bool), ∀ s ∈ splitSentsGo b l, s.length ≤ l.length := by
  induction l with
  | nil =>
    intro b s hs
    simp only [splitSentsGo, List.mem_singleton] at hs
    simp [hs]
  | cons c rest ih =>
    intro b s hs
    simp only [splitSentsGo] at hs
    split at hs
    · exact le_trans (ih true s hs) (Nat.le_succ _)
    · split at hs
      · rcases List.mem_cons.mp hs with h1 | h1
        · subst h1
          simp
        · exact le_trans (ih true s h1) (Nat.le_succ _)
      · cases hrec : splitSentsGo false rest with
        | nil =>
          rw [hrec] at hs
          simp only [List.mem_singleton] at hs
          simp [hs]
        | cons h t =>
          rw [hrec] at hs
          rcases List.mem_cons.mp hs with h1 | h1
          · have hh : h ∈ splitSentsGo false rest := by
              rw [hrec]
              exact List.mem_cons_self _ _
            have := ih false h hh
            subst h1
            simp only [List.length_cons]
            exact Nat.succ_le_succ this
          · have hm : s ∈ splitSentsGo false rest := by
              rw [hrec]
              exact List.mem_cons_of_mem _ h1
            exact le_trans (ih false s hm) (Nat.le_succ _)

namespace KnowledgeBaseService

theorem overlapOf_length_le (l : List Char) :
    (overlapOf l).length ≤ chunk_overlap := by
  unfold overlapOf
  split
  · rename_i hgt
    rw [List.length_drop]
    omega
  · rename_i hle
    omega

/-- The chunk-size invariant the accumulation loop preserves: every
emitted chunk and the running buffer stay within the bound. -/
def ChunkBound (B : Nat) (st : ChunkState) : Prop :=
  (∀ c ∈ st.chunks, c.length ≤ B) ∧ st.current.length ≤ B

theorem stepSentence_bound {B P : Nat} {s : List Char} {st : ChunkState}
    (hB : chunk_size ≤ B) (hPB : chunk_overlap + 2 + P ≤ B)
    (hs : s.length ≤ P) (hst : ChunkBound B st) :
    ChunkBound B (stepSentence st s) := by
  unfold stepSentence
  split
  · rename_i hover
    split
    · refine ⟨?_, by simp⟩
      intro c hc
      rcases List.mem_append.mp hc with h1 | h1
      · exact hst.1 c h1
      · rw [List.mem_singleton] at h1
        subst h1
        omega
    · refine ⟨?_, ?_⟩
      · intro c hc
        rcases List.mem_append.mp hc with h1 | h1
        · exact hst.1 c h1
        · rw [List.mem_singleton] at h1
          subst h1
          exact le_trans (length_pyStrip_le _) hst.2
      · simp only [List.length_append, List.length_cons]
        have := overlapOf_length_le st.current
        omega
  · rename_i hfit
    have hfit2 : st.current.length + s.length + 1 ≤ chunk_size := by omega
    refine ⟨hst.1, ?_⟩
    split
    · show s.length ≤ B
      omega
    · show (st.current ++ ' ' :: s).length ≤ B
      simp only [List.length_append, List.length_cons]
      omega

theorem foldl_stepSentence_bound {B P : Nat} {st : ChunkState}
    (hB : chunk_size ≤ B) (hPB : chunk_overlap + 2 + P ≤ B)
    (sents : List (List Char)) (hsents : ∀ s ∈ sents, s.length ≤ P)
    (hst : ChunkBound B st) :
    ChunkBound B (sents.foldl stepSentence st) := by
  induction sents generalizing st with
  | nil => exact hst
  | cons s rest ih =>
    simp only [List.foldl_cons]
    exact ih (fun x hx => hsents x (List.mem_cons_of_mem _ hx))
      (stepSentence_bound hB hPB (hsents s (List.mem_cons_self _ _)) hst)

theorem stepParagraph_bound {B P : Nat} {para : List Char} {st : ChunkState}
    (hB : chunk_size ≤ B) (hPB : chunk_overlap + 2 + P ≤ B)
    (hpara : (pyStrip para).length ≤ P) (hst : ChunkBound B st) :
    ChunkBound B (stepParagraph st para) := by
  unfold stepParagraph
  split
  · exact hst
  · split
    · rename_i hover
      split
      · refine foldl_stepSentence_bound hB hPB _ ?_ hst
        intro s hsmem
        exact le_trans (splitSentsGo_length_le _ false s hsmem) hpara
      · refine ⟨?_, ?_⟩
        · intro c hc
          rcases List.mem_append.mp hc with h1 | h1
          · exact hst.1 c h1
          · rw [List.mem_singleton] at h1
            subst h1
            exact le_trans (length_pyStrip_le _) hst.2
        · simp only [List.length_append, List.length_cons]
          have := overlapOf_length_le st.current
          omega
    · rename_i hfit
      have hfit2 : st.current.length + (pyStrip para).length + 2 ≤ chunk_size := by
        omega
      refine ⟨hst.1, ?_⟩
      split
      · show (pyStrip para).length ≤ B
        omega
      · show (st.current ++ '\n' :: '\n' :: pyStrip para).length ≤ B
        simp only [List.length_append, List.length_cons]
        omega

theorem foldl_stepParagraph_bound {B P : Nat} {st : ChunkState}
    (hB : chunk_size ≤ B) (hPB : chunk_overlap + 2 + P ≤ B)
    (paras : List (List Char))
    (hparas : ∀ p ∈ paras, (pyStrip p).length ≤ P) (hst : ChunkBound B st) :
    ChunkBound B (paras.foldl stepParagraph st) := by
  induction paras generalizing st with
  | nil => exact hst
  | cons p rest ih =>
    simp only [List.foldl_cons]
    exact ih (fun x hx => hparas x (List.mem_cons_of_mem _ hx))
      (stepParagraph_bound hB hPB (hparas p (List.mem_cons_self _ _)) hst)

end KnowledgeBaseService

/-- C4 (amended): every chunk has length at most
`max chunk_size (chunk_overlap + 2 + P)` where `P` bounds the stripped
paragraph lengths — chunks built by accumulation stay within the
800-character target, and a chunk exceeding the target-plus-overlap margin
can only arise from a single oversized paragraph (or sentence) carried
whole, with at most overlap + separator prepended.  The universal
sentence-boundary fallback of the original claim fails: it runs only when
the running buffer is empty (see the counterexample). -/
theorem C4_amended :
    ∀ (content : List Char) (P : Nat),
      (∀ para ∈ splitParagraphs content, (pyStrip para).length ≤ P) →
      ∀ c ∈ KnowledgeBaseService.chunk_document content,
        c.length ≤ max KnowledgeBaseService.chunk_size
          (KnowledgeBaseService.chunk_overlap + 2 + P) := by
  intro content P hP c hc
  unfold KnowledgeBaseService.chunk_document at hc
  split at hc
  · simp at hc
  · have hB : KnowledgeBaseService.chunk_size ≤
        max KnowledgeBaseService.chunk_size
          (KnowledgeBaseService.chunk_overlap + 2 + P) := le_max_left _ _
    have hPB : KnowledgeBaseService.chunk_overlap + 2 + P ≤
        max KnowledgeBaseService.chunk_size
          (KnowledgeBaseService.chunk_overlap + 2 + P) := le_max_right _ _
    have hbound : KnowledgeBaseService.ChunkBound
        (max KnowledgeBaseService.chunk_size
          (KnowledgeBaseService.chunk_overlap + 2 + P))
        (KnowledgeBaseService.chunkFinalState content) :=
      KnowledgeBaseService.foldl_stepParagraph_bound hB hPB
        (splitParagraphs content) hP ⟨by simp, by simp⟩
    split at hc
    · exact hbound.1 c hc
    · rcases List.mem_append.mp hc with h1 | h1
      · exact hbound.1 c h1
      · rw [List.mem_singleton] at h1
        subst h1
        exact le_trans (length_pyStrip_le _) hbound.2

set_option maxRecDepth 40000 in
/-- Witness for the amended C4 at the counterexample document (paragraphs
bounded by 1019 characters), evaluated at its oversized second chunk. -/
theorem C4_amended_witness :
    ((KnowledgeBaseService.chunk_document c4content).getD 1 []).length ≤
      max KnowledgeBaseService.chunk_size
        (KnowledgeBaseService.chunk_overlap + 2 + 1019) :=
  C4_amended c4content 1019 (by decide)
    ((KnowledgeBaseService.chunk_document c4content).getD 1 []) (by decide)

/-! ## Query Normalizer (`FiberSearchService.normalize_query`)

Python string operations over `List Char`: `str.split()` (whitespace
words), `' '.join`, `str.replace`, the run-collapsing regex
`re.sub(r'(.)\x5c1{2,}', ...)`, all structurally recursive so that
concrete inputs evaluate. -/

/-- Worker for Python `str.split()`: `cur` is the reversed current word. -/
def wordsAux (cur : List Char) : List Char → List (List Char)
  | [] => if cur.isEmpty then [] else [cur.reverse]
  | c :: rest =>
    if isPySpace c then
      if cur.isEmpty then wordsAux [] rest
      else cur.reverse :: wordsAux [] rest
    else wordsAux (c :: cur) rest

/-- Python `str.split()` — whitespace-delimited words, no empties. -/
def words (l : List Char) : List (List Char) := wordsAux [] l

/-- Python `' '.join(ws)`. -/
def unwords : List (List Char) → List Char
  | [] => []
  | [w] => w
  | w :: rest => w ++ ' ' :: unwords rest

/-- `replace('_', ' ').replace('-', ' ')` on a single character. -/
def sepToSpace (c : Char) : Char := if c == '_' || c == '-' then ' ' else c

/-- `replace(' ', '-')` on a single character. -/
def spaceToHyphen (c : Char) : Char := if c == ' ' then '-' else c

/-- `replace(' ', '_')` on a single character. -/
def spaceToUnderscore (c : Char) : Char := if c == ' ' then '_' else c

/-- Fuel-driven worker for Python `str.replace(pat, rep)` (leftmost,
non-overlapping); fuel `l.length` suffices since every step consumes at
least one character. -/
def replaceAllGo (pat rep : List Char) : Nat → List Char → List Char
  | 0, l => l
  | _ + 1, [] => []
  | fuel + 1, c :: rest =>
    if !pat.isEmpty && pat.isPrefixOf (c :: rest) then
      rep ++ replaceAllGo pat rep fuel ((c :: rest).drop pat.length)
    else c :: replaceAllGo pat rep fuel rest

/-- Python `l.replace(pat, rep)`. -/
def replaceAll (pat rep l : List Char) : List Char :=
  replaceAllGo pat rep l.length l

/-- Emit a run of `count` copies of `c`, collapsed to `keep` copies when
the run has length 3 or more (the regex groups `(.)\x5c1{2,}`). -/
def emitRun (keep : Nat) (c : Char) (count : Nat) : List Char :=
  List.replicate (if count ≥ 3 then keep else count) c

/-- Run-length scanner for `re.sub(r'(.)\x5c1{2,}', ...)`. -/
def collapseRunsGo (keep : Nat) (c : Char) (count : Nat) :
    List Char → List Char
  | [] => emitRun keep c count
  | d :: rest =>
    if d == c then collapseRunsGo keep c (count + 1) rest
    else emitRun keep c count ++ collapseRunsGo keep d 1 rest

/-- `re.sub(r'(.)\x5c1{2,}', repl, p)` where `repl` keeps `keep` copies:
every maximal run of 3+ identical characters becomes `keep` characters. -/
def collapseRuns (keep : Nat) : List Char → List Char
  | [] => []
  | c :: rest => collapseRunsGo keep c 1 rest

namespace FiberSearchService

/-- The fixed typo-correction dictionary, in insertion order. -/
def typo_corrections : List (List Char × List Char) :=
  [("spiniinng", "spinning"), ("spinnnning", "spinning"),
   ("spining", "spinning"), ("dyeinng", "dyeing"),
   ("weaving", "weaving"), ("kniting", "knitting")].map
    (fun pr => (pr.1.toList, pr.2.toList))

/-- The sequential `corrected = corrected.replace(typo, correct)` loop
(the `if typo in corrected` guard is redundant: replacing an absent
substring is the identity). -/
def applyTypos (p : List Char) : List Char :=
  typo_corrections.foldl (fun c tr => replaceAll tr.1 tr.2 c) p

/-- Append the variant when the guard holds and it is in neither the
snapshot `patterns` list nor the accumulator. -/
def addIfNovel (patterns ded : List (List Char)) (v : List Char)
    (keep : Bool) : List (List Char) :=
  if keep && !patterns.contains v && !ded.contains v then ded ++ [v] else ded

/-- One iteration of the typo/`(.)\x5c1{2,}`-reduction loop over a snapshot
pattern. -/
def typoStep (patterns ded : List (List Char)) (p : List Char) :
    List (List Char) :=
  addIfNovel patterns
    (addIfNovel patterns
      (addIfNovel patterns ded (applyTypos p) (!(applyTypos p == p)))
      (collapseRuns 2 p) (!(collapseRuns 2 p == p)))
    (collapseRuns 1 p)
    (!(collapseRuns 1 p == p) && !(collapseRuns 1 p == collapseRuns 2 p))

/-- The `deduplicated_patterns` list accumulated over the snapshot. -/
def typoDedupLoop (patterns : List (List Char)) : List (List Char) :=
  patterns.foldl (typoStep patterns) []

/-- `pattern1.replace(' ', '')`. -/
def pattern_no_sep_of (p1 : List Char) : List Char :=
  p1.filter (fun c => !(c == ' '))

/-- Pattern 1 of `normalize_query`: lowercase, collapse whitespace,
separators (`_`, `-`) to spaces, collapse whitespace again. -/
def base_pattern (query : List Char) : List Char :=
  unwords (words ((unwords (words (lowerStr query))).map sepToSpace))

/-- Patterns 1–4: the base pattern, its hyphen and underscore variants
(only if it contains a space), and the no-separator variant (if new). -/
def initial_patterns (p1 : List Char) : List (List Char) :=
  [p1] ++
    (if p1.contains ' ' then [p1.map spaceToHyphen] else []) ++
    (if p1.contains ' ' then [p1.map spaceToUnderscore] else []) ++
    (if pattern_no_sep_of p1 ≠ p1 then [pattern_no_sep_of p1] else [])

/-- Patterns 1–5: the initial patterns extended with the typo/reduction
variants. -/
def with_typo_variants (p1 : List Char) : List (List Char) :=
  initial_patterns p1 ++ typoDedupLoop (initial_patterns p1)

/-- One split-point iteration of pattern 6: the space split (only if
new) immediately followed by its hyphen variant (appended
unconditionally with it). -/
def splitStep (nosep : List Char) (pats : List (List Char)) (i : Nat) :
    List (List Char) :=
  if pats.contains (nosep.take i ++ ' ' :: nosep.drop i) then pats
  else
    pats ++ [nosep.take i ++ ' ' :: nosep.drop i,
      (nosep.take i ++ ' ' :: nosep.drop i).map spaceToHyphen]

/-- Patterns 1–6: word-split candidates at offsets `range(3, min(8,
len - 2))` for a long separator-free no-sep variant. -/
def with_splits (p1 : List Char) : List (List Char) :=
  if (pattern_no_sep_of p1).length > 6 &&
      !((pattern_no_sep_of p1).contains ' ') then
    (List.range' 3 (min 8 ((pattern_no_sep_of p1).length - 2) - 3)).foldl
      (splitStep (pattern_no_sep_of p1)) (with_typo_variants p1)
  else with_typo_variants p1

/-- Final dedup preserving first-seen order, dropping empty patterns
(`if p and p not in unique_patterns`). -/
def dedupStep (acc : List (List Char)) (p : List Char) :
    List (List Char) :=
  if !p.isEmpty && !acc.contains p then acc ++ [p] else acc

def dedupPatterns (pats : List (List Char)) : List (List Char) :=
  pats.foldl dedupStep []

/-- `normalize_query` after pattern 1 has been computed: everything
downstream depends on the query only through the base pattern. -/
def normalize_from_base (p1 : List Char) : List (List Char) :=
  (dedupPatterns (with_splits p1)).take 12

/-- `FiberSearchService.normalize_query`. -/
def normalize_query (query : List Char) : List (List Char) :=
  normalize_from_base (base_pattern query)

end FiberSearchService

/-- C6 counterexample: `"mel-tspinning"` is a variant produced for
`"melt spinning"` (a pattern-6 hyphen split), but re-normalizing it yields
`"mel_tspinning"` (its pattern-3 underscore variant), which the original
list does not contain — so the re-normalized list is not a subset of the
original one. -/
theorem C6_counterexample :
    ("mel-tspinning".toList) ∈
        FiberSearchService.normalize_query ("melt spinning".toList) ∧
      ("mel_tspinning".toList) ∈
        FiberSearchService.normalize_query ("mel-tspinning".toList) ∧
      ("mel_tspinning".toList) ∉
        FiberSearchService.normalize_query ("melt spinning".toList) := by
  refine ⟨by decide, by decide, by decide⟩

theorem toLower_toLower (c : Char) :
    Char.toLower (Char.toLower c) = Char.toLower c := by
  unfold Char.toLower
  by_cases h : c.toNat ≥ 65 ∧ c.toNat ≤ 90
  · rw [if_pos h]
    have hv : (c.toNat + 32).isValidChar := by
      left
      omega
    have htn : (Char.ofNat (c.toNat + 32)).toNat = c.toNat + 32 := by
      unfold Char.ofNat
      rw [dif_pos hv]
      exact rfl
    rw [htn]
    rw [if_neg (by omega)]
  · rw [if_neg h, if_neg h]

theorem map_eq_self {α : Type} {f : α → α} :
    ∀ (l : List α), (∀ c ∈ l, f c = c) → l.map f = l := by
  intro l h
  induction l with
  | nil => rfl
  | cons c t ih =>
    rw [List.map_cons, h c (List.mem_cons_self _ _),
      ih (fun d hd => h d (List.mem_cons_of_mem _ hd))]

theorem sepToSpace_idem (c : Char) : sepToSpace (sepToSpace c) = sepToSpace c := by
  unfold sepToSpace
  split
  · simp
  · rfl

theorem wordsAux_mem_good :
    ∀ (l cur : List Char), (∀ c ∈ cur, isPySpace c = false) →
      ∀ w ∈ wordsAux cur l, w ≠ [] ∧ ∀ c ∈ w, isPySpace c = false := by
  intro l
  induction l with
  | nil =>
    intro cur hcur w hw
    simp only [wordsAux] at hw
    split at hw
    · simp at hw
    · rename_i hne
      rw [List.mem_singleton] at hw
      subst hw
      refine ⟨?_, ?_⟩
      · intro hrev
        rw [List.reverse_eq_nil_iff] at hrev
        subst hrev
        simp at hne
      · intro c hc
        rw [List.mem_reverse] at hc
        exact hcur c hc
  | cons d rest ih =>
    intro cur hcur w hw
    simp only [wordsAux] at hw
    split at hw
    · rename_i hsp
      split at hw
      · exact ih [] (by simp) w hw
      · rename_i hne
        rcases List.mem_cons.mp hw with h1 | h1
        · subst h1
          refine ⟨?_, ?_⟩
          · intro hrev
            rw [List.reverse_eq_nil_iff] at hrev
            subst hrev
            simp at hne
          · intro c hc
            rw [List.mem_reverse] at hc
            exact hcur c hc
        · exact ih [] (by simp) w h1
    · rename_i hsp
      refine ih (d :: cur) ?_ w hw
      intro c hc
      rcases List.mem_cons.mp hc with h1 | h1
      · subst h1
        simpa using hsp
      · exact hcur c h1

theorem wordsAux_mem_chars :
    ∀ (l cur : List Char), ∀ w ∈ wordsAux cur l, ∀ c ∈ w, c ∈ cur ∨ c ∈ l := by
  intro l
  induction l with
  | nil =>
    intro cur w hw c hc
    simp only [wordsAux] at hw
    split at hw
    · simp at hw
    · rw [List.mem_singleton] at hw
      subst hw
      rw [List.mem_reverse] at hc
      exact Or.inl hc
  | cons d rest ih =>
    intro cur w hw c hc
    simp only [wordsAux] at hw
    split at hw
    · split at hw
      · rcases ih [] w hw c hc with h1 | h1
        · simp at h1
        · exact Or.inr (List.mem_cons_of_mem _ h1)
      · rcases List.mem_cons.mp hw with h1 | h1
        · subst h1
          rw [List.mem_reverse] at hc
          exact Or.inl hc
        · rcases ih [] w h1 c hc with h2 | h2
          · simp at h2
          · exact Or.inr (List.mem_cons_of_mem _ h2)
    · rcases ih (d :: cur) w hw c hc with h1 | h1
      · rcases List.mem_cons.mp h1 with h2 | h2
        · exact Or.inr (h2 ▸ List.mem_cons_self _ _)
        · exact Or.inl h2
      · exact Or.inr (List.mem_cons_of_mem _ h1)

theorem mem_unwords :
    ∀ (ws : List (List Char)) (c : Char), c ∈ unwords ws →
      c = ' ' ∨ ∃ w ∈ ws, c ∈ w := by
  intro ws
  induction ws with
  | nil =>
    intro c hc
    simp [unwords] at hc
  | cons w rest ih =>
    cases rest with
    | nil =>
      intro c hc
      exact Or.inr ⟨w, List.mem_cons_self _ _, hc⟩
    | cons x t =>
      intro c hc
      rw [show unwords (w :: x :: t) = w ++ ' ' :: unwords (x :: t) from rfl]
        at hc
      rcases List.mem_append.mp hc with h1 | h1
      · exact Or.inr ⟨w, List.mem_cons_self _ _, h1⟩
      · rcases List.mem_cons.mp h1 with h2 | h2
        · exact Or.inl h2
        · rcases ih c h2 with h3 | ⟨w2, hw2, hcw2⟩
          · exact Or.inl h3
          · exact Or.inr ⟨w2, List.mem_cons_of_mem _ hw2, hcw2⟩

theorem wordsAux_append :
    ∀ (w cur l : List Char), (∀ c ∈ w, isPySpace c = false) →
      wordsAux cur (w ++ l) = wordsAux (w.reverse ++ cur) l := by
  intro w
  induction w with
  | nil =>
    intro cur l h
    simp
  | cons c w2 ih =>
    intro cur l h
    have hc : isPySpace c = false := h c (List.mem_cons_self _ _)
    rw [List.cons_append]
    show (if isPySpace c then _ else wordsAux (c :: cur) (w2 ++ l)) = _
    rw [if_neg (by simp [hc])]
    rw [ih (c :: cur) l (fun d hd => h d (List.mem_cons_of_mem _ hd))]
    rw [List.reverse_cons, List.append_assoc, List.singleton_append]

theorem words_unwords :
    ∀ (ws : List (List Char)),
      (∀ w ∈ ws, w ≠ [] ∧ ∀ c ∈ w, isPySpace c = false) →
      words (unwords ws) = ws := by
  intro ws
  induction ws with
  | nil =>
    intro h
    rfl
  | cons w rest ih =>
    intro h
    have hw := h w (List.mem_cons_self _ _)
    cases rest with
    | nil =>
      show words (unwords [w]) = [w]
      rw [show unwords [w] = w from rfl]
      unfold words
      conv_lhs => rw [← List.append_nil w]
      rw [wordsAux_append w [] [] hw.2, List.append_nil]
      cases hrev : w.reverse with
      | nil =>
        rw [List.reverse_eq_nil_iff] at hrev
        exact absurd hrev hw.1
      | cons a t =>
        show (if (a :: t).isEmpty then [] else [(a :: t).reverse]) = [w]
        rw [if_neg (by simp)]
        rw [← hrev, List.reverse_reverse]
    | cons x t =>
      show words (unwords (w :: x :: t)) = w :: x :: t
      rw [show unwords (w :: x :: t) = w ++ ' ' :: unwords (x :: t) from rfl]
      unfold words
      rw [wordsAux_append w [] _ hw.2, List.append_nil]
      show (if isPySpace ' ' then
          if w.reverse.isEmpty then wordsAux [] (unwords (x :: t))
          else w.reverse.reverse :: wordsAux [] (unwords (x :: t))
        else wordsAux (' ' :: w.reverse) (unwords (x :: t))) = w :: x :: t
      rw [if_pos (by decide)]
      have hne : w.reverse.isEmpty = false := by
        cases hrev : w.reverse with
        | nil =>
          rw [List.reverse_eq_nil_iff] at hrev
          exact absurd hrev hw.1
        | cons a t2 => rfl
      rw [if_neg (by simp [hne]), List.reverse_reverse]
      have := ih (fun w2 hw2 => h w2 (List.mem_cons_of_mem _ hw2))
      unfold words at this
      rw [this]

/-- Characters that the lowercasing and separator replacement leave
unchanged: all characters of a base pattern are of this form. -/
def charGood (c : Char) : Prop := Char.toLower c = c ∧ sepToSpace c = c

theorem words_good (l : List Char) :
    ∀ w ∈ words l, w ≠ [] ∧ ∀ c ∈ w, isPySpace c = false :=
  wordsAux_mem_good l [] (by simp)

theorem base_pattern_chars (q : List Char) :
    ∀ c ∈ FiberSearchService.base_pattern q, charGood c := by
  intro c hc
  unfold FiberSearchService.base_pattern at hc
  rcases mem_unwords _ c hc with h1 | ⟨w, hw, hcw⟩
  · subst h1
    exact ⟨by decide, by decide⟩
  · have hcl := wordsAux_mem_chars _ [] w hw c hcw
    simp only [List.not_mem_nil, false_or] at hcl
    rcases List.mem_map.mp hcl with ⟨d, hd, hds⟩
    subst hds
    have hdlow : Char.toLower d = d := by
      rcases mem_unwords _ d hd with h2 | ⟨w2, hw2, hdw2⟩
      · subst h2
        decide
      · have hdl := wordsAux_mem_chars _ [] w2 hw2 d hdw2
        simp only [List.not_mem_nil, false_or] at hdl
        rcases List.mem_map.mp hdl with ⟨e, he, hel⟩
        rw [← hel]
        exact toLower_toLower e
    refine ⟨?_, sepToSpace_idem d⟩
    unfold sepToSpace
    split
    · decide
    · exact hdlow

theorem base_pattern_idem (q : List Char) :
    FiberSearchService.base_pattern (FiberSearchService.base_pattern q) =
      FiberSearchService.base_pattern q := by
  have hchars := base_pattern_chars q
  have hlower : lowerStr (FiberSearchService.base_pattern q) =
      FiberSearchService.base_pattern q :=
    map_eq_self _ (fun c hc => (hchars c hc).1)
  have hsep : (FiberSearchService.base_pattern q).map sepToSpace =
      FiberSearchService.base_pattern q :=
    map_eq_self _ (fun c hc => (hchars c hc).2)
  have hwu : unwords (words (FiberSearchService.base_pattern q)) =
      FiberSearchService.base_pattern q := by
    conv_lhs =>
      rw [show FiberSearchService.base_pattern q =
        unwords (words ((unwords (words (lowerStr q))).map sepToSpace))
        from rfl]
    rw [words_unwords _ (words_good _)]
    rfl
  show unwords (words ((unwords (words
      (lowerStr (FiberSearchService.base_pattern q)))).map sepToSpace)) =
    FiberSearchService.base_pattern q
  rw [hlower, hwu, hsep, hwu]

theorem foldl_append_head {β : Type}
    (f : List (List Char) → β → List (List Char))
    (hf : ∀ acc x, ∃ ys, f acc x = acc ++ ys) :
    ∀ (l : List β) (acc : List (List Char)) (a : List Char),
      acc.head? = some a → (l.foldl f acc).head? = some a := by
  intro l
  induction l with
  | nil =>
    intro acc a h
    exact h
  | cons x rest ih =>
    intro acc a h
    rw [List.foldl_cons]
    refine ih (f acc x) a ?_
    obtain ⟨ys, hys⟩ := hf acc x
    rw [hys]
    cases acc with
    | nil => simp at h
    | cons b t => simpa using h

theorem addIfNovel_append_ex (pats ded : List (List Char)) (v : List Char)
    (k : Bool) : ∃ ys, FiberSearchService.addIfNovel pats ded v k = ded ++ ys := by
  unfold FiberSearchService.addIfNovel
  split
  · exact ⟨[v], rfl⟩
  · exact ⟨[], (List.append_nil _).symm⟩

theorem typoStep_append_ex (pats ded : List (List Char)) (p : List Char) :
    ∃ ys, FiberSearchService.typoStep pats ded p = ded ++ ys := by
  unfold FiberSearchService.typoStep
  obtain ⟨y1, h1⟩ := addIfNovel_append_ex pats ded
    (FiberSearchService.applyTypos p) (!(FiberSearchService.applyTypos p == p))
  obtain ⟨y2, h2⟩ := addIfNovel_append_ex pats
    (FiberSearchService.addIfNovel pats ded (FiberSearchService.applyTypos p)
      (!(FiberSearchService.applyTypos p == p)))
    (collapseRuns 2 p) (!(collapseRuns 2 p == p))
  obtain ⟨y3, h3⟩ := addIfNovel_append_ex pats
    (FiberSearchService.addIfNovel pats
      (FiberSearchService.addIfNovel pats ded (FiberSearchService.applyTypos p)
        (!(FiberSearchService.applyTypos p == p)))
      (collapseRuns 2 p) (!(collapseRuns 2 p == p)))
    (collapseRuns 1 p)
    (!(collapseRuns 1 p == p) && !(collapseRuns 1 p == collapseRuns 2 p))
  refine ⟨y1 ++ y2 ++ y3, ?_⟩
  rw [h3, h2, h1]
  simp [List.append_assoc]

theorem splitStep_append_ex (nosep : List Char) (pats : List (List Char))
    (i : Nat) : ∃ ys, FiberSearchService.splitStep nosep pats i = pats ++ ys := by
  unfold FiberSearchService.splitStep
  split
  · exact ⟨[], (List.append_nil _).symm⟩
  · exact ⟨_, rfl⟩

theorem dedupStep_append_ex (acc : List (List Char)) (p : List Char) :
    ∃ ys, FiberSearchService.dedupStep acc p = acc ++ ys := by
  unfold FiberSearchService.dedupStep
  split
  · exact ⟨[p], rfl⟩
  · exact ⟨[], (List.append_nil _).symm⟩

theorem normalize_from_base_head (p1 : List Char) (hne : p1 ≠ []) :
    (FiberSearchService.normalize_from_base p1).head? = some p1 := by
  unfold FiberSearchService.normalize_from_base
  have hinit : (FiberSearchService.with_typo_variants p1).head? = some p1 := rfl
  have hsplits : (FiberSearchService.with_splits p1).head? = some p1 := by
    unfold FiberSearchService.with_splits
    split
    · exact foldl_append_head _ (splitStep_append_ex _) _ _ p1 hinit
    · exact hinit
  obtain ⟨t, ht⟩ : ∃ t, FiberSearchService.with_splits p1 = p1 :: t := by
    cases hws : FiberSearchService.with_splits p1 with
    | nil =>
      rw [hws] at hsplits
      simp at hsplits
    | cons a t =>
      rw [hws] at hsplits
      simp only [List.head?_cons, Option.some.injEq] at hsplits
      exact ⟨t, by rw [hsplits]⟩
  rw [ht]
  unfold FiberSearchService.dedupPatterns
  rw [List.foldl_cons]
  have hfirst : FiberSearchService.dedupStep [] p1 = [p1] := by
    unfold FiberSearchService.dedupStep
    rw [if_pos]
    · rfl
    · simp [List.isEmpty_iff, hne]
  rw [hfirst]
  have hhead := foldl_append_head _ dedupStep_append_ex t [p1] p1 rfl
  cases hfold : t.foldl FiberSearchService.dedupStep [p1] with
  | nil =>
    rw [hfold] at hhead
    simp at hhead
  | cons a t2 =>
    rw [hfold] at hhead
    simp only [List.head?_cons, Option.some.injEq] at hhead
    rw [List.take_cons]
    · simp [hhead]
    · omega

/-- C6 (amended): re-normalizing the FIRST variant of the output — the
base pattern, which heads the list whenever the output is non-empty —
yields exactly the list produced for the original input (the base-pattern
computation is idempotent and everything downstream depends on the query
only through it).  For other variants the subset property of the original
claim fails (see the counterexample). -/
theorem C6_amended :
    ∀ (q p : List Char),
      (FiberSearchService.normalize_query q).head? = some p →
      FiberSearchService.normalize_query p =
        FiberSearchService.normalize_query q := by
  intro q p hp
  unfold FiberSearchService.normalize_query at hp ⊢
  by_cases hb : FiberSearchService.base_pattern q = []
  · rw [hb] at hp
    rw [show FiberSearchService.normalize_from_base [] = [] from by decide]
      at hp
    simp at hp
  · have hhead := normalize_from_base_head _ hb
    rw [hp] at hhead
    have hpb : p = FiberSearchService.base_pattern q := by
      simpa using hhead
    rw [hpb, base_pattern_idem]

/-- Witness for the amended C6: the raw query has uppercase letters and a
double space; its first output variant is the base pattern
`"melt spinning"`, and re-normalizing that variant reproduces the list. -/
theorem C6_amended_witness :
    FiberSearchService.normalize_query ("melt spinning".toList) =
      FiberSearchService.normalize_query ("Melt  Spinning".toList) :=
  C6_amended ("Melt  Spinning".toList) ("melt spinning".toList) (by decide)

/-! ## Error handling of `FiberSearchService.semantic_search` (C8)

The store and provider calls are abstracted as `Except`-valued inputs:
`embed_count` the embeddings-table count probes (guarded by the inner
`try`), `vector_query` the embedding call plus pgvector query (guarded by
the outer `try`, whose handler calls `db.rollback()`), `keyword_db` the
database execution inside `keyword_search` (whose own handler returns
`[]`). -/

instance {ε α : Type} [DecidableEq ε] [DecidableEq α] :
    DecidableEq (Except ε α) := fun a b =>
  match a, b with
  | .ok x, .ok y => decidable_of_iff (x = y) (by simp)
  | .error x, .error y => decidable_of_iff (x = y) (by simp)
  | .ok _, .error _ => isFalse (fun h => Except.noConfusion h)
  | .error _, .ok _ => isFalse (fun h => Except.noConfusion h)

structure FiberSemanticEnv where
  openai_configured : Bool
  embed_count : Except Unit Nat
  vector_query : Except Unit (List FiberEmbRow)
  keyword_db : Except Unit (List Nat)
deriving DecidableEq

structure FiberSemanticOutcome where
  rolled_back : Bool
  results : Except Unit (List (Nat × ℚ × String))
deriving DecidableEq

namespace FiberSearchService

/-- `FiberSearchService.keyword_search`: the whole body is wrapped in
`try/except`; on any exception it prints and returns the empty list. -/
def keyword_search_errors (dbResult : Except Unit (List Nat)) : List Nat :=
  match dbResult with
  | .ok l => l
  | .error _ => []

/-- The control flow of `FiberSearchService.semantic_search` around its
store calls: unconfigured client → keyword results at similarity 1.0;
count probe failing or zero → keyword fallback at 0.8; vector query
failing → rollback, then keyword fallback at 0.8. -/
def semantic_search_errors (env : FiberSemanticEnv) : FiberSemanticOutcome :=
  if !env.openai_configured then
    { rolled_back := false,
      results := .ok ((keyword_search_errors env.keyword_db).map
        (fun f => (f, (1 : ℚ), "keyword_match"))) }
  else
    match env.embed_count with
    | .error _ =>
      { rolled_back := false,
        results := .ok ((keyword_search_errors env.keyword_db).map
          (fun f => (f, mkRat 4 5, "keyword_fallback"))) }
    | .ok 0 =>
      { rolled_back := false,
        results := .ok ((keyword_search_errors env.keyword_db).map
          (fun f => (f, mkRat 4 5, "keyword_fallback"))) }
    | .ok (_ + 1) =>
      match env.vector_query with
      | .ok rows =>
        { rolled_back := false,
          results := .ok (rows.map
            (fun r => (r.fiberId, r.sim, r.content_type))) }
      | .error _ =>
        { rolled_back := true,
          results := .ok ((keyword_search_errors env.keyword_db).map
            (fun f => (f, mkRat 4 5, "keyword_fallback"))) }

end FiberSearchService

/-- C8 counterexample: when the vector query fails AND the keyword search
also fails, the operation returns a successful empty result — the keyword
failure is swallowed by `keyword_search`'s own handler and nothing
propagates to the caller as an error. -/
theorem C8_counterexample :
    (FiberSearchService.semantic_search_errors
        ⟨true, Except.ok 5, Except.error (), Except.error ()⟩).results =
      Except.ok [] ∧
    (FiberSearchService.semantic_search_errors
        ⟨true, Except.ok 5, Except.error (), Except.error ()⟩).rolled_back =
      true ∧
    (Except.ok [] : Except Unit (List (Nat × ℚ × String))) ≠
      Except.error () := by
  refine ⟨by decide, by decide, by decide⟩

/-- C8 (amended): when the vector query fails at the store boundary, the
open transaction is rolled back and the operation falls through to
keyword search (tagged as the 0.8 keyword fallback); if that keyword
search also fails, its own exception handler converts the failure into an
empty list, so the caller receives a successful empty result — not an
error. -/
theorem C8_amended :
    ∀ (env : FiberSemanticEnv) (n : Nat),
      env.openai_configured = true →
      env.embed_count = Except.ok n →
      n ≠ 0 →
      env.vector_query = Except.error () →
      (FiberSearchService.semantic_search_errors env).rolled_back = true ∧
      (FiberSearchService.semantic_search_errors env).results =
        Except.ok ((FiberSearchService.keyword_search_errors
          env.keyword_db).map (fun f => (f, mkRat 4 5, "keyword_fallback"))) ∧
      (env.keyword_db = Except.error () →
        (FiberSearchService.semantic_search_errors env).results =
          Except.ok []) := by
  intro env n hcfg hcount hn hvec
  cases n with
  | zero => exact absurd rfl hn
  | succ m =>
    unfold FiberSearchService.semantic_search_errors
    rw [hcfg, hcount, hvec]
    refine ⟨rfl, rfl, ?_⟩
    intro hkw
    rw [hkw]
    rfl

/-- Witness for the amended C8: both the vector query and the keyword
search fail. -/
theorem C8_amended_witness :
    (FiberSearchService.semantic_search_errors
        ⟨true, Except.ok 3, Except.error (), Except.error ()⟩).rolled_back =
      true ∧
    (FiberSearchService.semantic_search_errors
        ⟨true, Except.ok 3, Except.error (), Except.error ()⟩).results =
      Except.ok ((FiberSearchService.keyword_search_errors
        (Except.error ())).map
          (fun f => (f, mkRat 4 5, "keyword_fallback"))) ∧
    ((Except.error () : Except Unit (List Nat)) = Except.error () →
      (FiberSearchService.semantic_search_errors
        ⟨true, Except.ok 3, Except.error (), Except.error ()⟩).results =
        Except.ok []) :=
  C8_amended ⟨true, Except.ok 3, Except.error (), Except.error ()⟩ 3 rfl rfl
    (by decide) rfl

/-! ## Document update (`KnowledgeBaseService.update_document`), C9/C10

The document row, its embedding rows (chunk texts in `chunk_index`
order), the update arguments (`None` = field not supplied), the audit
`changes` payload, and the embedding-regeneration gate
`if content_changed and self.openai_client`. -/

structure KbDocument where
  id : Nat
  title : String
  content : List Char
  category : Option String
  subcategory : Option String
  fiber_ids : List Nat
  tags : List String
  is_published : Bool
deriving DecidableEq

structure UpdateArgs where
  title : Option String
  content : Option (List Char)
  category : Option String
  subcategory : Option String
  fiber_ids : Option (List Nat)
  tags : Option (List String)
  is_published : Option Bool
deriving DecidableEq

/-- A value of the audit `changes` payload: an `old`/`new` pair, except
content which records the old/new lengths. -/
inductive ChangeVal where
  | ofStr (old new : String)
  | ofOptStr (old new : Option String)
  | ofLen (old new : Nat)
  | ofBool (old new : Bool)
deriving DecidableEq

namespace KnowledgeBaseService

/-- The field assignments of `update_document` (every supplied field is
written to the document; title/content/category/is_published only when
different, which is observationally the same assignment). -/
def apply_update (doc : KbDocument) (args : UpdateArgs) : KbDocument :=
  { doc with
    title := args.title.getD doc.title
    content := args.content.getD doc.content
    category := match args.category with
      | some c => some c
      | none => doc.category
    subcategory := match args.subcategory with
      | some s => some s
      | none => doc.subcategory
    fiber_ids := args.fiber_ids.getD doc.fiber_ids
    tags := args.tags.getD doc.tags
    is_published := args.is_published.getD doc.is_published }

/-- The `changes` dict accumulated by `update_document`, in insertion
order: only title, content (as lengths), category and is_published are
ever recorded; subcategory, fiber_ids and tags are assigned without an
entry. -/
def update_changes (doc : KbDocument) (args : UpdateArgs) :
    List (String × ChangeVal) :=
  (match args.title with
   | some t => if t ≠ doc.title then [("title", ChangeVal.ofStr doc.title t)]
               else []
   | none => []) ++
  (match args.content with
   | some c => if c ≠ doc.content then
                 [("content", ChangeVal.ofLen doc.content.length c.length)]
               else []
   | none => []) ++
  (match args.category with
   | some c => if some c ≠ doc.category then
                 [("category", ChangeVal.ofOptStr doc.category (some c))]
               else []
   | none => []) ++
  (match args.is_published with
   | some b => if b ≠ doc.is_published then
                 [("is_published", ChangeVal.ofBool doc.is_published b)]
               else []
   | none => [])

/-- Did the update change the content field (`content is not None and
content != document.content`)? -/
def content_changed (doc : KbDocument) (args : UpdateArgs) : Bool :=
  match args.content with
  | some c => c ≠ doc.content
  | none => false

/-- `KnowledgeBaseService.update_document` on an existing document:
returns the updated document, the document's embedding rows (chunk texts,
regenerated from the new content only when the content changed AND the
embedding client is configured; deleted-then-reinserted wholesale), and
the audit `changes` payload (an `updated` audit row is written iff the
payload is non-empty). -/
def update_document (doc : KbDocument) (embeddings : List (List Char))
    (args : UpdateArgs) (openai_configured : Bool) :
    KbDocument × List (List Char) × List (String × ChangeVal) :=
  (apply_update doc args,
   if content_changed doc args && openai_configured then
     chunk_document (apply_update doc args).content
   else embeddings,
   update_changes doc args)

end KnowledgeBaseService

/-- A document and an update that changes only the subcategory. -/
def c9doc : KbDocument :=
  ⟨1, "Old title", "Some content.".toList, some "weaving", none, [], [],
    true⟩

def c9args : UpdateArgs :=
  ⟨none, none, none, some "jacquard", none, none, none⟩

/-- C9 counterexample: updating only the subcategory changes the stored
document but produces an empty `changes` payload — the change is not
recorded (and since the payload is empty, no `updated` audit row is
written at all). -/
theorem C9_counterexample :
    (KnowledgeBaseService.update_document c9doc [] c9args true).1.subcategory =
        some "jacquard" ∧
      c9doc.subcategory ≠ some "jacquard" ∧
      (KnowledgeBaseService.update_document c9doc [] c9args true).2.2 = [] := by
  refine ⟨by decide, by decide, by decide⟩

theorem mem_ite_singleton {α : Type} {e a : α} {c : Prop} [Decidable c]
    (h : e ∈ if c then [a] else []) : e = a := by
  split at h
  · exact List.mem_singleton.mp h
  · simp at h

/-- C9 (amended): of the updatable fields, exactly title, content,
category and the publish flag are recorded in the audit `changes` payload
when their value actually changes — title/category/publish as
`old`/`new` pairs and content as old/new lengths; subcategory, fiber_ids
and tags updates are applied to the document but never recorded. -/
theorem C9_amended :
    ∀ (doc : KbDocument) (args : UpdateArgs) (emb : List (List Char))
      (cfg : Bool),
      (∀ t, args.title = some t → t ≠ doc.title →
        ("title", ChangeVal.ofStr doc.title t) ∈
          (KnowledgeBaseService.update_document doc emb args cfg).2.2) ∧
      (∀ c, args.content = some c → c ≠ doc.content →
        ("content", ChangeVal.ofLen doc.content.length c.length) ∈
          (KnowledgeBaseService.update_document doc emb args cfg).2.2) ∧
      (∀ c, args.category = some c → some c ≠ doc.category →
        ("category", ChangeVal.ofOptStr doc.category (some c)) ∈
          (KnowledgeBaseService.update_document doc emb args cfg).2.2) ∧
      (∀ b, args.is_published = some b → b ≠ doc.is_published →
        ("is_published", ChangeVal.ofBool doc.is_published b) ∈
          (KnowledgeBaseService.update_document doc emb args cfg).2.2) ∧
      (∀ e ∈ (KnowledgeBaseService.update_document doc emb args cfg).2.2,
        e.1 = "title" ∨ e.1 = "content" ∨ e.1 = "category" ∨
          e.1 = "is_published") ∧
      (KnowledgeBaseService.update_document doc emb args cfg).1 =
        KnowledgeBaseService.apply_update doc args := by
  intro doc args emb cfg
  have hch : (KnowledgeBaseService.update_document doc emb args cfg).2.2 =
      KnowledgeBaseService.update_changes doc args := rfl
  refine ⟨?_, ?_, ?_, ?_, ?_, rfl⟩
  · intro t ht hne
    rw [hch]
    unfold KnowledgeBaseService.update_changes
    simp only [ht]
    rw [if_pos hne]
    exact List.mem_append.mpr (Or.inl (List.mem_append.mpr (Or.inl
      (List.mem_append.mpr (Or.inl (List.mem_singleton.mpr rfl))))))
  · intro c hc hne
    rw [hch]
    unfold KnowledgeBaseService.update_changes
    simp only [hc]
    rw [if_pos hne]
    refine List.mem_append.mpr (Or.inl (List.mem_append.mpr (Or.inl
      (List.mem_append.mpr (Or.inr ?_)))))
    exact List.mem_singleton.mpr rfl
  · intro c hc hne
    rw [hch]
    unfold KnowledgeBaseService.update_changes
    simp only [hc]
    rw [if_pos hne]
    refine List.mem_append.mpr (Or.inl (List.mem_append.mpr (Or.inr ?_)))
    exact List.mem_singleton.mpr rfl
  · intro b hb hne
    rw [hch]
    unfold KnowledgeBaseService.update_changes
    simp only [hb]
    rw [if_pos hne]
    refine List.mem_append.mpr (Or.inr ?_)
    exact List.mem_singleton.mpr rfl
  · intro e he
    rw [hch] at he
    unfold KnowledgeBaseService.update_changes at he
    rcases List.mem_append.mp he with h1 | h1
    · rcases List.mem_append.mp h1 with h2 | h2
      · rcases List.mem_append.mp h2 with h3 | h3
        · left
          cases hargs : args.title with
          | none =>
            rw [hargs] at h3
            simp at h3
          | some t =>
            rw [hargs] at h3
            rw [mem_ite_singleton h3]
        · right; left
          cases hargs : args.content with
          | none =>
            rw [hargs] at h3
            simp at h3
          | some c =>
            rw [hargs] at h3
            rw [mem_ite_singleton h3]
      · right; right; left
        cases hargs : args.category with
        | none =>
          rw [hargs] at h2
          simp at h2
        | some c =>
          rw [hargs] at h2
          rw [mem_ite_singleton h2]
    · right; right; right
      cases hargs : args.is_published with
      | none =>
        rw [hargs] at h1
        simp at h1
      | some b =>
        rw [hargs] at h1
        rw [mem_ite_singleton h1]

/-- A document plus an update that changes title and content. -/
def c9doc2 : KbDocument :=
  ⟨2, "Old title", "Old content.".toList, none, none, [], [], false⟩

def c9args2 : UpdateArgs :=
  ⟨some "New title", some ("New content.".toList), none, none, none, none,
    none⟩

/-- Witness for the amended C9: a title change is recorded as an old/new
pair, and every recorded entry names one of the four audited fields. -/
theorem C9_amended_witness :
    ("title", ChangeVal.ofStr "Old title" "New title") ∈
      (KnowledgeBaseService.update_document c9doc2 [] c9args2 true).2.2 :=
  (C9_amended c9doc2 c9args2 [] true).1 "New title" rfl (by decide)

/-- C10: when the embedding provider is unconfigured, updating a document
with changed content still commits the new content, but the stored
embedding rows are neither deleted nor inserted — the previous chunks
remain unchanged (and now correspond to the old content). -/
theorem C10_unconfigured_frame :
    ∀ (doc : KbDocument) (emb : List (List Char)) (args : UpdateArgs)
      (c : List Char),
      args.content = some c → c ≠ doc.content →
      (KnowledgeBaseService.update_document doc emb args false).1.content =
          c ∧
        (KnowledgeBaseService.update_document doc emb args false).2.1 =
          emb := by
  intro doc emb args c hc hne
  constructor
  · show (KnowledgeBaseService.apply_update doc args).content = c
    unfold KnowledgeBaseService.apply_update
    rw [hc]
    rfl
  · show (if KnowledgeBaseService.content_changed doc args && false then _
      else emb) = emb
    rw [Bool.and_false]
    rfl

/-- Witness for C10: a changed-content update with the client
unconfigured leaves the two stored chunks in place. -/
theorem C10_unconfigured_frame_witness :
    (KnowledgeBaseService.update_document c9doc2
        ["chunk one".toList, "chunk two".toList] c9args2 false).1.content =
        ("New content.".toList) ∧
      (KnowledgeBaseService.update_document c9doc2
        ["chunk one".toList, "chunk two".toList] c9args2 false).2.1 =
        ["chunk one".toList, "chunk two".toList] :=
  C10_unconfigured_frame c9doc2 ["chunk one".toList, "chunk two".toList]
    c9args2 ("New content.".toList) rfl (by decide)
